import Mathlib

/-!
Verification of the `macrond` scheduling daemon (Rust) against its
natural-language specification.  The Rust sources are shallowly embedded:
calendar datetimes are explicit records of integer fields (the local
timezone is modelled as fixed-offset, i.e. without DST transitions, so
chrono's `LocalResult` is always `Single`), fallible Rust functions
return `Except String _`, and external-crate behaviour (the `cron` crate)
is carried as an explicit environment with the properties its
documentation states.
-/

namespace Macrond

/-- A calendar date, mirroring chrono's `NaiveDate` field view
(`year`, `month` 1..12, `day` 1..days-in-month). -/
structure Date where
  year : Int
  month : Int
  day : Int
deriving Repr, DecidableEq

/-- A local datetime, mirroring chrono's `DateTime<Local>` for a
fixed-offset local timezone: calendar date plus time of day with
nanosecond precision. -/
structure DT where
  date : Date
  hour : Int
  minute : Int
  second : Int
  nano : Int
deriving Repr, DecidableEq

/-- Leap-year test, as chrono computes it. -/
def isLeap (y : Int) : Bool :=
  y % 4 == 0 && (y % 100 != 0 || y % 400 == 0)

/-- Number of days in a month.  The Rust `days_in_month` computes this by
subtracting consecutive month starts of chrono `NaiveDate`s; this is the
function it computes. -/
def daysInMonth (y m : Int) : Int :=
  if m = 2 then (if isLeap y then 29 else 28)
  else if m = 4 ∨ m = 6 ∨ m = 9 ∨ m = 11 then 30
  else 31

/-- Injective mixed-radix key of a date; for valid dates its order is the
calendar order. -/
def dateKey (d : Date) : Int :=
  (d.year * 13 + d.month) * 32 + d.day

/-- Injective mixed-radix key of a datetime; for valid datetimes its
order is the instant order of chrono `DateTime<Local>` values. -/
def key (t : DT) : Int :=
  (((dateKey t.date * 24 + t.hour) * 60 + t.minute) * 60 + t.second) * 1000000000 + t.nano

instance : LT DT := ⟨fun a b => key a < key b⟩
instance : LE DT := ⟨fun a b => key a ≤ key b⟩

instance (a b : DT) : Decidable (a < b) :=
  inferInstanceAs (Decidable (key a < key b))

instance (a b : DT) : Decidable (a ≤ b) :=
  inferInstanceAs (Decidable (key a ≤ key b))

/-- A date whose fields are in calendar range. -/
def ValidDate (d : Date) : Prop :=
  1 ≤ d.month ∧ d.month ≤ 12 ∧ 1 ≤ d.day ∧ d.day ≤ daysInMonth d.year d.month

/-- A datetimes whose fields are in range (no leap seconds, as in the
fixed-offset model). -/
def Valid (t : DT) : Prop :=
  ValidDate t.date ∧ 0 ≤ t.hour ∧ t.hour ≤ 23 ∧ 0 ≤ t.minute ∧ t.minute ≤ 59 ∧
    0 ≤ t.second ∧ t.second ≤ 59 ∧ 0 ≤ t.nano ∧ t.nano < 1000000000

instance (d : Date) : Decidable (ValidDate d) := by
  unfold ValidDate; infer_instance

instance (t : DT) : Decidable (Valid t) := by
  unfold Valid; infer_instance

/-- Successor date: chrono's `checked_add_days(Days::new(1))` on a valid
`NaiveDate`. -/
def succDate (d : Date) : Date :=
  if d.day < daysInMonth d.year d.month then ⟨d.year, d.month, d.day + 1⟩
  else if d.month < 12 then ⟨d.year, d.month + 1, 1⟩
  else ⟨d.year + 1, 1, 1⟩

/-- A parsed wall-clock time of day, mirroring the `NaiveTime` produced by
`parse_hhmm` (seconds are always zero there). -/
structure THM where
  hour : Int
  minute : Int
deriving Repr, DecidableEq

/-- chrono's `LocalResult`: resolving a wall-clock time in the local
timezone yields a single instant, two instants (fall-back overlap), or no
instant (spring-forward gap). -/
inductive LocalResult
  | single (dt : DT)
  | ambiguous (dt1 dt2 : DT)
  | none
deriving Repr, DecidableEq

/-- The local-timezone environment: chrono `Local`'s wall-clock resolution
(`with_ymd_and_hms`, which also backs `from_local_datetime`), and the
value `Local::now()` returns when the evaluator consults it in the gap
fallback. -/
structure TZEnv where
  withYmdHms : Int → Int → Int → Int → Int → Int → LocalResult
  now : DT

/-- A timezone without DST transitions: every wall-clock construction
resolves single-valued, to the instant with exactly those wall-clock
fields. -/
def FixedOffset (tz : TZEnv) : Prop :=
  ∀ y m d h mi s, tz.withYmdHms y m d h mi s = .single ⟨⟨y, m, d⟩, h, mi, s, 0⟩

/-- The minute-advance loop of `local_datetime` (`scheduler.rs` lines
163–171): while the minute is below 59, advance it and return the first
`Single` resolution; if none is found, fall back to `Local::now()`. -/
def local_datetime_scan (tz : TZEnv) (y m d hour : Int) : Nat → Int → DT
  | 0, _ => tz.now
  | fuel + 1, minute =>
    if minute < 59 then
      match tz.withYmdHms y m d hour (minute + 1) 0 with
      | .single dt => dt
      | _ => local_datetime_scan tz y m d hour fuel (minute + 1)
    else tz.now

/-- `local_datetime` from `scheduler.rs` lines 159–174, faithful to all
three `LocalResult` arms: `Single` returns the instant, `Ambiguous` picks
the earlier offset, and `None` (spring-forward gap) runs the
minute-advance scan with the `Local::now()` fallback. -/
def local_datetime_tz (tz : TZEnv) (y m d : Int) (t : THM) : DT :=
  match tz.withYmdHms y m d t.hour t.minute 0 with
  | .single dt => dt
  | .ambiguous dt _ => dt
  | .none => local_datetime_scan tz y m d t.hour 59 t.minute

/-- The fixed-offset specialization of `local_datetime_tz`: what
`local_datetime` computes when every resolution is `Single` (i.e. under
`FixedOffset`), proved as `local_datetime_tz_fixed` below. -/
def local_datetime (y m d : Int) (t : THM) : DT :=
  ⟨⟨y, m, d⟩, t.hour, t.minute, 0, 0⟩

/-- Days since 1970-01-01 of a civil date (the standard days-from-civil
algorithm, which is what chrono's `NaiveDate` ordinal arithmetic computes);
only used for the weekday of a date. -/
def daysFromCivil (d : Date) : Int :=
  let y := if d.month ≤ 2 then d.year - 1 else d.year
  let era := Int.fdiv y 400
  let yoe := y - era * 400
  let mp := if d.month ≤ 2 then d.month + 9 else d.month - 3
  let doy := Int.fdiv (153 * mp + 2) 5 + d.day - 1
  let doe := yoe * 365 + Int.fdiv yoe 4 - Int.fdiv yoe 100 + doy
  era * 146097 + doe - 719468

/-- chrono's `Datelike::weekday`, encoded as days-from-Monday (Mon = 0 …
Sun = 6). -/
def weekdayNum (d : Date) : Int :=
  (daysFromCivil d + 3).emod 7

/-- `num_to_weekday` from `scheduler.rs`, with `Weekday` encoded as
days-from-Monday: 1 ↦ Mon, …, 6 ↦ Sat, anything else ↦ Sun. -/
def num_to_weekday (v : Nat) : Int :=
  match v with
  | 1 => 0
  | 2 => 1
  | 3 => 2
  | 4 => 3
  | 5 => 4
  | 6 => 5
  | _ => 6

/-- `next_daily` from `scheduler.rs`. -/
def next_daily (after : DT) (t : THM) : DT :=
  let date := after.date
  let candidate := local_datetime date.year date.month date.day t
  if candidate ≤ after then
    let date2 := succDate date
    local_datetime date2.year date2.month date2.day t
  else candidate

/-- chrono's `after + TimeDelta::minutes(1)` on a valid datetime: add one
minute, carrying into the hour and day. -/
def addOneMinute (ts : DT) : DT :=
  if ts.minute < 59 then { ts with minute := ts.minute + 1 }
  else if ts.hour < 23 then { ts with hour := ts.hour + 1, minute := 0 }
  else ⟨succDate ts.date, 0, 0, ts.second, ts.nano⟩

/-- `next_every_minute` from `scheduler.rs`: one minute later, truncated to
second 0 and nanosecond 0 (`with_second(0)`/`with_nanosecond(0)` always
succeed on a valid datetime). -/
def next_every_minute (after : DT) : DT :=
  let ts := addOneMinute after
  { ts with second := 0, nano := 0 }

/-- The scan loop of `next_weekly` from `scheduler.rs`: up to `fuel`
iterations; on a weekday match with a candidate strictly after `after`,
return it, else advance one day.  After the loop, the unguarded candidate
at the reached date is returned. -/
def next_weekly_go (after : DT) (t : THM) (target : Int) : Nat → Date → DT
  | 0, date => local_datetime date.year date.month date.day t
  | fuel + 1, date =>
    let candidate := local_datetime date.year date.month date.day t
    if weekdayNum date = target ∧ after < candidate then candidate
    else next_weekly_go after t target fuel (succDate date)

/-- `next_weekly` from `scheduler.rs` (loop bound 8, starting at `after`'s
date). -/
def next_weekly (after : DT) (t : THM) (weekday : Nat) : DT :=
  next_weekly_go after t (num_to_weekday weekday) 8 after.date

/-- The scan loop of `next_monthly` from `scheduler.rs`: up to `fuel`
iterations over consecutive months; the candidate day is `day` clamped to
the month length; an unguarded day-1 candidate is returned after the
loop. -/
def next_monthly_go (after : DT) (t : THM) (day : Int) : Nat → Int → Int → DT
  | 0, y, m => local_datetime y m 1 t
  | fuel + 1, y, m =>
    let maxDay := daysInMonth y m
    let targetDay := min day maxDay
    let candidate := local_datetime y m targetDay t
    if after < candidate then candidate
    else if m = 12 then next_monthly_go after t day fuel (y + 1) 1
    else next_monthly_go after t day fuel y (m + 1)

/-- `next_monthly` from `scheduler.rs` (loop bound 24, starting at
`after`'s year and month). -/
def next_monthly (after : DT) (t : THM) (day : Nat) : DT :=
  next_monthly_go after t (day : Int) 24 after.date.year after.date.month

/-! The timezone-explicit versions of the evaluators: identical to the
functions above except that every wall-clock construction goes through
`local_datetime_tz`, exposing the gap/ambiguity behaviour of
`scheduler.rs` lines 159–174.  Under `FixedOffset` they coincide with the
functions above (proved below). -/

/-- `next_daily` with the timezone environment explicit. -/
def next_daily_tz (tz : TZEnv) (after : DT) (t : THM) : DT :=
  let date := after.date
  let candidate := local_datetime_tz tz date.year date.month date.day t
  if candidate ≤ after then
    let date2 := succDate date
    local_datetime_tz tz date2.year date2.month date2.day t
  else candidate

/-- The `next_weekly` scan loop with the timezone environment explicit. -/
def next_weekly_go_tz (tz : TZEnv) (after : DT) (t : THM) (target : Int) : Nat → Date → DT
  | 0, date => local_datetime_tz tz date.year date.month date.day t
  | fuel + 1, date =>
    let candidate := local_datetime_tz tz date.year date.month date.day t
    if weekdayNum date = target ∧ after < candidate then candidate
    else next_weekly_go_tz tz after t target fuel (succDate date)

/-- `next_weekly` with the timezone environment explicit. -/
def next_weekly_tz (tz : TZEnv) (after : DT) (t : THM) (weekday : Nat) : DT :=
  next_weekly_go_tz tz after t (num_to_weekday weekday) 8 after.date

/-- The `next_monthly` scan loop with the timezone environment explicit. -/
def next_monthly_go_tz (tz : TZEnv) (after : DT) (t : THM) (day : Int) : Nat → Int → Int → DT
  | 0, y, m => local_datetime_tz tz y m 1 t
  | fuel + 1, y, m =>
    let maxDay := daysInMonth y m
    let targetDay := min day maxDay
    let candidate := local_datetime_tz tz y m targetDay t
    if after < candidate then candidate
    else if m = 12 then next_monthly_go_tz tz after t day fuel (y + 1) 1
    else next_monthly_go_tz tz after t day fuel y (m + 1)

/-- `next_monthly` with the timezone environment explicit. -/
def next_monthly_tz (tz : TZEnv) (after : DT) (t : THM) (day : Nat) : DT :=
  next_monthly_go_tz tz after t (day : Int) 24 after.date.year after.date.month

/-! ### Job data model (`model.rs`) -/

/-- `Repeat` from `model.rs`. -/
inductive Repeat
  | daily
  | weekly
  | monthly
  | everyMinute
  | once
deriving Repr, DecidableEq

/-- `ScheduleConfig` from `model.rs` (the `repeat` field is called `rpt`
because `repeat` is a Lean keyword). -/
inductive ScheduleConfig
  | cron (expression : String)
  | simple (rpt : Repeat) (time : Option String) (weekday : Option Nat) (day : Option Nat)
      (once_at : Option String)
deriving Repr, DecidableEq

/-- `CommandConfig` from `model.rs` (the environment map as an association
list). -/
structure CommandConfig where
  program : String
  args : List String
  working_dir : Option String
  env : List (String × String)
deriving Repr, DecidableEq

/-- `JobConfig` from `model.rs`; `u8` fields are `Nat`s and `u64` is `Nat`. -/
structure JobConfig where
  id : String
  name : String
  enabled : Bool
  schedule : ScheduleConfig
  command : CommandConfig
  timeout_seconds : Nat
deriving Repr, DecidableEq

/-! ### The external cron crate -/

/-- Modelled from the spec: the parse result of the external `cron` crate
(`cron::Schedule`), which is not part of this repository.  Per §4.1,
"parse once via a cron grammar; iterate to the first entry strictly after
`after`": the schedule yields, for a lower bound, either nothing or the
first entry strictly after it. -/
structure CronSchedule where
  next : DT → Option DT
  next_gt : ∀ t u, next t = some u → t < u

/-- Modelled from the spec: the external cron crate's `Schedule::from_str`
parser, a pure function of the expression string, shared by the loader's
validation and the evaluator. -/
structure CronEnv where
  fromStr : String → Option CronSchedule

/-! ### Time-string parsers -/

/-- The numeric value of an ASCII digit character (both the Rust
`u32::from_str` accumulation and chrono's numeric scan compute digit
values this way). -/
def digitToNat (c : Char) : Nat := c.toNat - 48

/-- Greedy scan of at most `maxN` further digits (chrono's numeric scan
continuation). -/
def readDigitsAux : Nat → Nat → List Char → (Nat × List Char)
  | 0, acc, l => (acc, l)
  | fuel + 1, acc, l =>
    match l with
    | c :: rest =>
      if c.isDigit then readDigitsAux fuel (acc * 10 + digitToNat c) rest else (acc, l)
    | [] => (acc, [])

/-- chrono's numeric scan: at least one and at most `maxN` digits, greedy. -/
def readDigits (maxN : Nat) (l : List Char) : Option (Nat × List Char) :=
  match l with
  | c :: rest => if c.isDigit then some (readDigitsAux (maxN - 1) (digitToNat c) rest) else none
  | [] => none

/-- Expect one exact character (chrono literal item). -/
def expectChar (c : Char) : List Char → Option (List Char)
  | c' :: rest => if c' = c then some rest else none
  | [] => none

/-- chrono's `NaiveTime::parse_from_str(time, "%H:%M")`: optional leading
whitespace before each numeric field, 1–2 digit hour, literal `:`, 1–2
digit minute, end of input, fields in range.  Seconds default to 0. -/
def chronoParseHHMM (s : String) : Option THM :=
  match readDigits 2 (s.toList.dropWhile Char.isWhitespace) with
  | none => none
  | some (h, l1) =>
    match expectChar ':' l1 with
    | none => none
    | some l2 =>
      match readDigits 2 (l2.dropWhile Char.isWhitespace) with
      | none => none
      | some (m, l3) =>
        if l3 = [] then
          if h ≤ 23 ∧ m ≤ 59 then some ⟨(h : Int), (m : Int)⟩ else none
        else none

/-- `parse_hhmm` from `scheduler.rs` (the chrono error detail string is
abstracted to a fixed message). -/
def parse_hhmm (time : Option String) : Except String THM :=
  match time with
  | none => .error "time is required"
  | some s =>
    match chronoParseHHMM s with
    | some t => .ok t
    | none => .error "invalid time: parse error"

/-- chrono's `NaiveDateTime::parse_from_str(s, "%Y-%m-%d %H:%M")`:
optionally signed 1–4 digit year, literal `-`, 1–2 digit month, literal
`-`, 1–2 digit day, whitespace, 1–2 digit hour, literal `:`, 1–2 digit
minute, end of input, all fields forming a valid calendar datetime. -/
def chronoParseYMDHM (s : String) : Option DT :=
  let l0 := s.toList.dropWhile Char.isWhitespace
  let signed :=
    match l0 with
    | '-' :: rest => (true, rest)
    | '+' :: rest => (false, rest)
    | _ => (false, l0)
  match readDigits 4 signed.2 with
  | none => none
  | some (y0, l2) =>
    let y : Int := if signed.1 then -(y0 : Int) else (y0 : Int)
    match expectChar '-' l2 with
    | none => none
    | some l3 =>
      match readDigits 2 (l3.dropWhile Char.isWhitespace) with
      | none => none
      | some (mo, l4) =>
        match expectChar '-' l4 with
        | none => none
        | some l5 =>
          match readDigits 2 (l5.dropWhile Char.isWhitespace) with
          | none => none
          | some (d, l6) =>
            match readDigits 2 (l6.dropWhile Char.isWhitespace) with
            | none => none
            | some (h, l7) =>
              match expectChar ':' l7 with
              | none => none
              | some l8 =>
                match readDigits 2 (l8.dropWhile Char.isWhitespace) with
                | none => none
                | some (mi, l9) =>
                  if l9 = [] then
                    let dt : Date := ⟨y, (mo : Int), (d : Int)⟩
                    if ValidDate dt ∧ h ≤ 23 ∧ mi ≤ 59 then
                      some ⟨dt, (h : Int), (mi : Int), 0, 0⟩
                    else none
                  else none

/-! ### `next_run_after` (`scheduler.rs`) -/

/-- `next_run_after` from `scheduler.rs`, specialized to a fixed-offset
timezone (every wall-clock resolution `Single`); the timezone-explicit
version is `next_run_after_tz` below, and the two coincide under
`FixedOffset` (`next_run_after_tz_fixed`).  The cron crate is supplied as
the environment `env`. -/
def next_run_after (env : CronEnv) (job : JobConfig) (after : DT) : Except String (Option DT) :=
  if job.enabled = false then .ok none
  else
    match job.schedule with
    | .cron expr =>
      match env.fromStr expr with
      | none => .error "invalid cron expression"
      | some sched => .ok (sched.next after)
    | .simple rpt time weekday day once_at =>
      match rpt with
      | .daily =>
        match parse_hhmm time with
        | .error e => .error e
        | .ok t => .ok (some (next_daily after t))
      | .weekly =>
        match parse_hhmm time with
        | .error e => .error e
        | .ok t =>
          match weekday with
          | none => .error "weekday is required"
          | some w => .ok (some (next_weekly after t w))
      | .monthly =>
        match parse_hhmm time with
        | .error e => .error e
        | .ok t =>
          match day with
          | none => .error "day is required"
          | some d => .ok (some (next_monthly after t d))
      | .everyMinute => .ok (some (next_every_minute after))
      | .once =>
        match once_at with
        | none => .error "once_at is required"
        | some s =>
          match chronoParseYMDHM s with
          | none => .error "invalid once_at"
          | some dt => if after < dt then .ok (some dt) else .ok none

/-- `next_run_after` from `scheduler.rs` with the timezone environment
explicit: every wall-clock construction (including `from_local_datetime`
on a parsed `once_at`, lines 50–54: `Single` and the earlier `Ambiguous`
instant are used, `None` yields `Ok(None)`) goes through `tz`. -/
def next_run_after_tz (tz : TZEnv) (env : CronEnv) (job : JobConfig) (after : DT) :
    Except String (Option DT) :=
  if job.enabled = false then .ok none
  else
    match job.schedule with
    | .cron expr =>
      match env.fromStr expr with
      | none => .error "invalid cron expression"
      | some sched => .ok (sched.next after)
    | .simple rpt time weekday day once_at =>
      match rpt with
      | .daily =>
        match parse_hhmm time with
        | .error e => .error e
        | .ok t => .ok (some (next_daily_tz tz after t))
      | .weekly =>
        match parse_hhmm time with
        | .error e => .error e
        | .ok t =>
          match weekday with
          | none => .error "weekday is required"
          | some w => .ok (some (next_weekly_tz tz after t w))
      | .monthly =>
        match parse_hhmm time with
        | .error e => .error e
        | .ok t =>
          match day with
          | none => .error "day is required"
          | some d => .ok (some (next_monthly_tz tz after t d))
      | .everyMinute => .ok (some (next_every_minute after))
      | .once =>
        match once_at with
        | none => .error "once_at is required"
        | some s =>
          match chronoParseYMDHM s with
          | none => .error "invalid once_at"
          | some naive =>
            match tz.withYmdHms naive.date.year naive.date.month naive.date.day
                naive.hour naive.minute 0 with
            | .single dt => if after < dt then .ok (some dt) else .ok none
            | .ambiguous dt _ => if after < dt then .ok (some dt) else .ok none
            | .none => .ok none

/-! ### Config loader (`config.rs`) -/

/-- Rust `str::trim` (both ends), on the character list. -/
def rustTrim (s : String) : List Char :=
  ((s.toList.dropWhile Char.isWhitespace).reverse.dropWhile Char.isWhitespace).reverse

/-- Rust `str::split(sep)` on a character list (always at least one,
possibly empty, segment). -/
def splitOnChar (sep : Char) : List Char → List (List Char)
  | [] => [[]]
  | c :: rest =>
    if c = sep then [] :: splitOnChar sep rest
    else
      match splitOnChar sep rest with
      | h :: t => (c :: h) :: t
      | [] => [c :: rest]

/-- Rust `u32::from_str`: optional leading `+`, one or more ASCII digits,
value below `2^32`. -/
def rust_parse_u32 (l : List Char) : Option Nat :=
  let l' := if l.head? = some '+' then l.tail else l
  if l' ≠ [] ∧ l'.all Char.isDigit then
    let v := l'.foldl (fun acc c => acc * 10 + digitToNat c) 0
    if v < 4294967296 then some v else none
  else none

/-- `validate_hhmm` from `config.rs`. -/
def validate_hhmm (time : Option String) : Except String Unit :=
  match time with
  | none => .error "time is required"
  | some s =>
    match splitOnChar ':' s.toList with
    | [p1, p2] =>
      match rust_parse_u32 p1 with
      | none => .error "invalid hour"
      | some h =>
        match rust_parse_u32 p2 with
        | none => .error "invalid minute"
        | some m =>
          if h > 23 ∨ m > 59 then .error "simple.time out of range" else .ok ()
    | _ => .error "simple.time must be HH:MM"

/-- `validate_job` from `config.rs`. -/
def validate_job (env : CronEnv) (job : JobConfig) : Except String Unit :=
  if rustTrim job.id = [] then .error "job.id is required"
  else if rustTrim job.name = [] then .error "job.name is required"
  else if rustTrim job.command.program = [] then .error "command.program is required"
  else
    match job.schedule with
    | .cron expr =>
      match env.fromStr expr with
      | none => .error "invalid cron expression"
      | some _ => .ok ()
    | .simple rpt time weekday day once_at =>
      match rpt with
      | .daily => validate_hhmm time
      | .weekly =>
        match weekday with
        | none => .error "weekday is required for weekly"
        | some w =>
          if ¬(1 ≤ w ∧ w ≤ 7) then .error "weekday must be 1..=7" else validate_hhmm time
      | .monthly =>
        match day with
        | none => .error "day is required for monthly"
        | some d =>
          if ¬(1 ≤ d ∧ d ≤ 31) then .error "day must be 1..=31" else validate_hhmm time
      | .everyMinute =>
        match time with
        | some _ => .error "time is not allowed for everyminute"
        | none => .ok ()
      | .once =>
        match once_at with
        | none => .error "once_at is required for once"
        | some s =>
          match chronoParseYMDHM s with
          | none => .error "invalid once_at format"
          | some _ => .ok ()

deriving instance DecidableEq for Except

/-- One directory entry as `load_jobs` observes it: its file name, whether
it is a regular file, and the combined outcome of
`read_to_string`/`serde_json::from_str` on its content (external
filesystem and serde behaviour, carried as data; both failure kinds are
reported by the source with a context naming the file). -/
structure DirEntry where
  name : String
  isFile : Bool
  parsed : Except String JobConfig
deriving Repr, DecidableEq

/-- Rust `Path::extension` of a file name: the portion after the last
`.`, absent when there is no `.` or when the only `.` is leading. -/
def pathExtension (name : String) : Option (List Char) :=
  match splitOnChar '.' name.toList with
  | [_] => none
  | [[], _] => none
  | parts => parts.getLast?

/-- Byte-wise (here: scalar-value-wise) lexicographic `≤` on strings as
character lists, mirroring Rust's `str::cmp` used by `sort_by`. -/
def listLeChar : List Char → List Char → Bool
  | [], _ => true
  | _ :: _, [] => false
  | a :: as, b :: bs =>
    if a.toNat < b.toNat then true
    else if b.toNat < a.toNat then false
    else listLeChar as bs

/-- The job order used by `jobs.sort_by(|a, b| a.id.cmp(&b.id))`. -/
def jobIdLe (a b : JobConfig) : Prop := listLeChar a.id.toList b.id.toList = true

instance : DecidableRel jobIdLe := fun a b =>
  inferInstanceAs (Decidable (listLeChar a.id.toList b.id.toList = true))

/-- The loader loop of `load_jobs` from `config.rs`, with the final
stable sort by id. -/
def load_jobs_go (env : CronEnv) :
    List DirEntry → List JobConfig → List String → Except String (List JobConfig)
  | [], jobs, _ => .ok (List.insertionSort jobIdLe jobs)
  | e :: rest, jobs, ids =>
    if e.isFile = false then load_jobs_go env rest jobs ids
    else if pathExtension e.name ≠ some ("json".toList) then load_jobs_go env rest jobs ids
    else
      match e.parsed with
      | .error msg => .error ("parse job file " ++ e.name ++ ": " ++ msg)
      | .ok job =>
        match validate_job env job with
        | .error msg => .error ("invalid job " ++ job.id ++ ": " ++ msg)
        | .ok _ =>
          if job.id ∈ ids then .error ("duplicate job id: " ++ job.id)
          else load_jobs_go env rest (jobs ++ [job]) (job.id :: ids)

/-- `load_jobs` from `config.rs`; a non-existent directory is the empty
entry list. -/
def load_jobs (env : CronEnv) (entries : List DirEntry) : Except String (List JobConfig) :=
  load_jobs_go env entries [] []

/-! ### Daemon loop state (`daemon.rs`) -/

/-- `ExecutionRecord` from `model.rs`. -/
structure ExecutionRecord where
  run_id : String
  job_id : String
  trigger : String
  started_at : DT
  ended_at : DT
  status : String
  exit_code : Option Int
  message : String
deriving Repr, DecidableEq

/-- Rust `Result::ok().flatten()` as applied to `next_run_after`'s result
in `daemon.rs`. -/
def exceptOptJoin (r : Except String (Option DT)) : Option DT :=
  match r with
  | .ok o => o
  | .error _ => none

/-- `compute_next_runs` from `daemon.rs` (the `HashMap` as an association
list keyed by job id; loader-produced job sets have distinct ids). -/
def compute_next_runs (env : CronEnv) (jobs : List JobConfig) (now : DT) :
    List (String × Option DT) :=
  jobs.map (fun j => (j.id, exceptOptJoin (next_run_after env j now)))

/-- `HashMap::get` on the next-runs association list. -/
def lookupNextRun (m : List (String × Option DT)) (id : String) : Option (Option DT) :=
  (m.find? (fun p => p.1 == id)).map (·.2)

/-- The loop-owned mutable state of `run_daemon` that reload touches. -/
structure LoopState where
  jobs : List JobConfig
  nextRuns : List (String × Option DT)
  lastReloadError : Option String
deriving Repr, DecidableEq

/-- The reload arm of the daemon tick (`daemon.rs` lines 62–76): `load`
is the outcome of `config::load_jobs` on the jobs directory. -/
def reload_step (env : CronEnv) (st : LoopState) (now : DT)
    (load : Except String (List JobConfig)) : LoopState :=
  match load with
  | .ok v => ⟨v, compute_next_runs env v now, none⟩
  | .error e => ⟨st.jobs, st.nextRuns, some ("reload failed: " ++ e)⟩

/-- The manual-request arm of the daemon tick (`daemon.rs` lines 78–82):
for each requested id, the job dispatched (if any) is the first loaded job
with that id that is enabled. -/
def manual_dispatch (jobs : List JobConfig) (requested : List String) : List JobConfig :=
  requested.filterMap (fun id => jobs.find? (fun j => j.id == id && j.enabled))

/-- The schedule-firing arm of the daemon tick (`daemon.rs` lines 84–95):
jobs whose stored next-run time is present and `≤ now`. -/
def due_jobs (jobs : List JobConfig) (nextRuns : List (String × Option DT)) (now : DT) :
    List JobConfig :=
  jobs.filter (fun j =>
    match lookupNextRun nextRuns j.id with
    | some (some ts) => decide (ts ≤ now)
    | _ => false)

/-- The job selection of `run_job_inline` from `daemon.rs` (lines
130–138): the job found by id is executed unconditionally. -/
def inline_job (jobs : List JobConfig) (job_id : String) : Option JobConfig :=
  jobs.find? (fun j => j.id == job_id)

/-- One iteration of the harvest loop of the daemon tick (`daemon.rs`
lines 97–104): push the record, then drop from the front down to 100. -/
def harvest_step (ring : List ExecutionRecord) (r : ExecutionRecord) : List ExecutionRecord :=
  let ring2 := ring ++ [r]
  if ring2.length > 100 then ring2.drop (ring2.length - 100) else ring2

/-- The harvest loop over all records drained from the completion
channel. -/
def harvest (ring : List ExecutionRecord) (received : List ExecutionRecord) :
    List ExecutionRecord :=
  received.foldl harvest_step ring

/-- Daemon startup (`daemon.rs` lines 21–48) restricted to the two
modelled outcomes: the lockfile liveness check (`pidAlive`) and the
initial `config::load_jobs` outcome.  On a dead or absent lockfile the
daemon always proceeds into its loop. -/
def startup_step (env : CronEnv) (pidAlive : Bool) (load : Except String (List JobConfig))
    (now : DT) : Except String LoopState :=
  if pidAlive then .error "daemon is already running"
  else
    let init :=
      match load with
      | .ok v => (v, (none : Option String))
      | .error e => ([], some ("initial load failed: " ++ e))
    .ok ⟨init.1, compute_next_runs env init.1 now, init.2⟩

/-! ### Job executor (`daemon.rs`, `execute_job`) -/

/-- The outcome of `tokio::time::timeout(timeout, child.wait())` as
`execute_job` distinguishes it. -/
inductive WaitOutcome
  | exited (success : Bool) (code : Option Int)
  | waitError (msg : String)
  | timedOut
deriving Repr, DecidableEq

/-- What `execute_job` derives from a wait outcome: record status, exit
code, log message, and whether the child was force-killed
(`start_kill` is invoked exactly in the timeout arm of the source's
match). -/
structure ExecOutcome where
  status : String
  exit_code : Option Int
  message : String
  childKilled : Bool
deriving Repr, DecidableEq

/-- The outcome match of `execute_job` (`daemon.rs` lines 233–255). -/
def execute_outcome : WaitOutcome → ExecOutcome
  | .exited true c => ⟨"success", c, "event=success", false⟩
  | .exited false c => ⟨"failed", c, "event=failed exit_code=" ++ toString (c.getD (-1)), false⟩
  | .waitError e => ⟨"failed", none, "event=failed message=wait-error:" ++ e, false⟩
  | .timedOut => ⟨"timeout", none, "event=timeout", true⟩

/-- The wait bound of `execute_job`: `Duration::from_secs(job.timeout_seconds.max(1))`. -/
def timeout_bound (job : JobConfig) : Nat := max job.timeout_seconds 1

/-- The single `ExecutionRecord` that one `execute_job` call returns. -/
def execute_record (job : JobConfig) (run_id trigger : String) (started ended : DT)
    (w : WaitOutcome) : ExecutionRecord :=
  let o := execute_outcome w
  ⟨run_id, job.id, trigger, started, ended, o.status, o.exit_code, o.message⟩

/-! ### Auxiliary definitions for stating and witnessing claims -/

/-- Strict `HH:MM` shape: a 1–2 digit hour, a colon, a 1–2 digit minute
(no sign, no extra characters). -/
def goodHHMMCore (l : List Char) : Bool :=
  match l with
  | [a, x, b] => a.isDigit && x = ':' && b.isDigit
  | [a, x2, x3, c] =>
    (a.isDigit && x2 = ':' && x3.isDigit && c.isDigit) ||
      (a.isDigit && x2.isDigit && x3 = ':' && c.isDigit)
  | [a, b, x, c, d] => a.isDigit && b.isDigit && x = ':' && c.isDigit && d.isDigit
  | _ => false

/-- Strict `HH:MM` shape of a time string. -/
def goodHHMM (s : String) : Bool := goodHHMMCore s.toList

/-- Every `time` parameter that the schedule kind will feed to the
evaluator's `parse_hhmm` is in strict `HH:MM` shape. -/
def goodTimeFormat (job : JobConfig) : Bool :=
  match job.schedule with
  | .cron _ => true
  | .simple rpt time _ _ _ =>
    match rpt with
    | .daily | .weekly | .monthly =>
      match time with
      | some s => goodHHMM s
      | none => true
    | _ => true

/-- The trivial cron environment (a parser accepting nothing), used to
instantiate theorems at concrete inputs. -/
def trivialCronEnv : CronEnv := ⟨fun _ => none⟩

/-- A concrete fixed-offset timezone environment. -/
def fixedTZ : TZEnv :=
  ⟨fun y m d h mi s => .single ⟨⟨y, m, d⟩, h, mi, s, 0⟩, ⟨⟨2024, 3, 9⟩, 2, 35, 0, 0⟩⟩

/-- A timezone with a spring-forward gap covering the whole hour 02:xx of
2024-03-10 (as in America/New_York), observed at `now` = 2024-03-09
02:35:00 (the instant the daemon evaluates at). -/
def gapTZ : TZEnv :=
  ⟨fun y m d h mi s =>
    if y = 2024 ∧ m = 3 ∧ d = 10 ∧ h = 2 then .none
    else .single ⟨⟨y, m, d⟩, h, mi, s, 0⟩,
   ⟨⟨2024, 3, 9⟩, 2, 35, 0, 0⟩⟩

/-- The lower-bound instant for the gap counterexample: 2024-03-09
02:35:00, just past today's 02:30 firing. -/
def gapAfter : DT := ⟨⟨2024, 3, 9⟩, 2, 35, 0, 0⟩

/-- A daily job at 02:30, a wall-clock time that does not exist on the
spring-forward day of `gapTZ`. -/
def gapDailyJob : JobConfig :=
  ⟨"a", "job a", true, .simple .daily (some "02:30") none none none,
    ⟨"/bin/true", [], none, []⟩, 3600⟩

/-- A timezone whose spring-forward gap covers the whole hour 00:xx of
2010-04-30 (as in Africa/Cairo, where DST began 2010-04-30 at midnight),
observed at `now` = 2010-04-15 14:30:00. -/
def cairoTZ : TZEnv :=
  ⟨fun y m d h mi s =>
    if y = 2010 ∧ m = 4 ∧ d = 30 ∧ h = 0 then .none
    else .single ⟨⟨y, m, d⟩, h, mi, s, 0⟩,
   ⟨⟨2010, 4, 15⟩, 14, 30, 0, 0⟩⟩

/-- The lower-bound instant for the monthly gap counterexample:
2010-04-15 14:00:00 (the clock advances to `cairoTZ.now` between its
capture and the evaluator's `Local::now()` call, as in `app.rs` and
`compute_next_runs`). -/
def cairoAfter : DT := ⟨⟨2010, 4, 15⟩, 14, 0, 0, 0⟩

/-- A concrete valid instant: 2024-03-10 08:59:30 local. -/
def sampleAfter : DT := ⟨⟨2024, 3, 10⟩, 8, 59, 30, 0⟩

/-- A concrete daily job at 09:00. -/
def sampleDailyJob : JobConfig :=
  ⟨"a", "job a", true, .simple .daily (some "09:00") none none none,
    ⟨"/bin/true", [], none, []⟩, 3600⟩

/-- The same job with `enabled = false`. -/
def disabledJob : JobConfig :=
  ⟨"a", "job a", false, .simple .daily (some "09:00") none none none,
    ⟨"/bin/true", [], none, []⟩, 3600⟩

/-- A concrete execution record. -/
def sampleRecord : ExecutionRecord :=
  ⟨"r1", "a", "manual", sampleAfter, sampleAfter, "success", some 0, "event=success"⟩

/-- A directory entry whose file is named `a.json` but whose job (id `b`)
fails validation because its name is empty. -/
def badNameEntry : DirEntry :=
  ⟨"a.json", true,
    .ok ⟨"b", "", true, .simple .everyMinute none none none none, ⟨"p", [], none, []⟩, 3600⟩⟩

/-- Does the second list start with the first? -/
def startsWith : List Char → List Char → Bool
  | [], _ => true
  | _ :: _, [] => false
  | p :: ps, c :: cs => p = c && startsWith ps cs

/-- Does the pattern occur contiguously anywhere in the list?  Used to
state that an error message does not mention a file name. -/
def containsSeq (pat : List Char) : List Char → Bool
  | [] => startsWith pat []
  | c :: cs => startsWith pat (c :: cs) || containsSeq pat cs


/-! ## Proofs -/

theorem daysInMonth_bounds (y m : Int) : 28 ≤ daysInMonth y m ∧ daysInMonth y m ≤ 31 := by
  unfold daysInMonth
  split
  · split <;> omega
  · split <;> omega

theorem validDate_succDate {d : Date} (h : ValidDate d) : ValidDate (succDate d) := by
  obtain ⟨y, m, dd⟩ := d
  obtain ⟨h1, h2, h3, h4⟩ := h
  replace h1 : 1 ≤ m := h1
  replace h2 : m ≤ 12 := h2
  replace h3 : 1 ≤ dd := h3
  replace h4 : dd ≤ daysInMonth y m := h4
  unfold succDate
  split
  · rename_i hc
    replace hc : dd < daysInMonth y m := hc
    exact ⟨h1, h2, show (1:Int) ≤ dd + 1 by omega, show dd + 1 ≤ daysInMonth y m from hc⟩
  · split
    · rename_i hc hm
      replace hm : m < 12 := hm
      have hb := daysInMonth_bounds y (m + 1)
      exact ⟨show (1:Int) ≤ m + 1 by omega, show m + 1 ≤ 12 by omega, le_refl 1,
        show (1:Int) ≤ daysInMonth y (m + 1) by omega⟩
    · have hb := daysInMonth_bounds (y + 1) 1
      exact ⟨le_refl 1, show (1:Int) ≤ 12 by omega, le_refl 1,
        show (1:Int) ≤ daysInMonth (y + 1) 1 by omega⟩

theorem dateKey_lt_succDate {d : Date} (h : ValidDate d) : dateKey d < dateKey (succDate d) := by
  obtain ⟨y, m, dd⟩ := d
  obtain ⟨h1, h2, h3, h4⟩ := h
  replace h1 : 1 ≤ m := h1
  replace h2 : m ≤ 12 := h2
  replace h3 : 1 ≤ dd := h3
  replace h4 : dd ≤ daysInMonth y m := h4
  have hb := daysInMonth_bounds y m
  unfold succDate
  split
  · show (y * 13 + m) * 32 + dd < (y * 13 + m) * 32 + (dd + 1)
    omega
  · split
    · show (y * 13 + m) * 32 + dd < (y * 13 + (m + 1)) * 32 + 1
      omega
    · show (y * 13 + m) * 32 + dd < ((y + 1) * 13 + 1) * 32 + 1
      omega

theorem key_lt_of_dateKey_lt {a b : DT} (hd : dateKey a.date < dateKey b.date)
    (ha : Valid a) (hb2 : 0 ≤ b.hour) (hb3 : 0 ≤ b.minute) (hb4 : 0 ≤ b.second)
    (hb5 : 0 ≤ b.nano) : a < b := by
  obtain ⟨_, a1, a2, a3, a4, a5, a6, a7, a8⟩ := ha
  show key a < key b
  unfold key
  omega

theorem chronoParseHHMM_bounds {s : String} {t : THM} (h : chronoParseHHMM s = some t) :
    0 ≤ t.hour ∧ t.hour ≤ 23 ∧ 0 ≤ t.minute ∧ t.minute ≤ 59 := by
  unfold chronoParseHHMM at h
  split at h
  · exact absurd h (by simp)
  · split at h
    · exact absurd h (by simp)
    · split at h
      · exact absurd h (by simp)
      · split at h
        · split at h
          · rename_i hn hr
            injection h with h
            subst h
            refine ⟨?_, ?_, ?_, ?_⟩ <;> simp only [THM.hour, THM.minute] <;> omega
          · exact absurd h (by simp)
        · exact absurd h (by simp)

theorem parse_hhmm_bounds {time : Option String} {t : THM} (h : parse_hhmm time = .ok t) :
    0 ≤ t.hour ∧ t.hour ≤ 23 ∧ 0 ≤ t.minute ∧ t.minute ≤ 59 := by
  unfold parse_hhmm at h
  split at h
  · exact absurd h (by simp)
  · split at h
    · rename_i hp
      injection h with h
      subst h
      exact chronoParseHHMM_bounds hp
    · exact absurd h (by simp)

theorem next_every_minute_spec {t : DT} (h : Valid t) :
    (next_every_minute t).second = 0 ∧ (next_every_minute t).nano = 0 ∧
      t < next_every_minute t ∧ next_every_minute t ≤ addOneMinute t := by
  obtain ⟨⟨y, m, d⟩, hh, mi, s, n⟩ := t
  obtain ⟨hd, b1, b2, b3, b4, b5, b6, b7, b8⟩ := h
  replace b1 : 0 ≤ hh := b1
  replace b2 : hh ≤ 23 := b2
  replace b3 : 0 ≤ mi := b3
  replace b4 : mi ≤ 59 := b4
  replace b5 : 0 ≤ s := b5
  replace b6 : s ≤ 59 := b6
  replace b7 : 0 ≤ n := b7
  replace b8 : n < 1000000000 := b8
  unfold next_every_minute addOneMinute
  split
  · rename_i hc
    replace hc : mi < 59 := hc
    refine ⟨rfl, rfl, ?_, ?_⟩
    · show key _ < key _
      simp only [key]
      omega
    · show key _ ≤ key _
      simp only [key]
      omega
  · split
    · rename_i hc hc2
      replace hc2 : hh < 23 := hc2
      refine ⟨rfl, rfl, ?_, ?_⟩
      · show key _ < key _
        simp only [key]
        omega
      · show key _ ≤ key _
        simp only [key]
        omega
    · refine ⟨rfl, rfl, ?_, ?_⟩
      · exact key_lt_of_dateKey_lt (dateKey_lt_succDate hd)
          ⟨hd, b1, b2, b3, b4, b5, b6, b7, b8⟩ (le_refl 0) (le_refl 0) (le_refl 0) (le_refl 0)
      · show key _ ≤ key _
        simp only [key]
        omega

theorem next_daily_gt {after : DT} {t : THM} (hva : Valid after)
    (h1 : 0 ≤ t.hour) (h2 : 0 ≤ t.minute) : after < next_daily after t := by
  unfold next_daily
  dsimp only
  split
  · exact key_lt_of_dateKey_lt (dateKey_lt_succDate hva.1) hva h1 h2 (le_refl 0) (le_refl 0)
  · rename_i hc
    have hc' : ¬(key (local_datetime after.date.year after.date.month after.date.day t) ≤
        key after) := hc
    show key after < key (local_datetime after.date.year after.date.month after.date.day t)
    omega

theorem next_weekly_go_gt {after : DT} {t : THM} {target : Int} (hva : Valid after)
    (h1 : 0 ≤ t.hour) (h2 : 0 ≤ t.minute) :
    ∀ (fuel : Nat) (date : Date), ValidDate date →
      (dateKey after.date < dateKey date ∨ (date = after.date ∧ 0 < fuel)) →
      after < next_weekly_go after t target fuel date
  | 0, date, hvd, hinv => by
    unfold next_weekly_go
    rcases hinv with hlt | ⟨_, hf⟩
    · exact key_lt_of_dateKey_lt hlt hva h1 h2 (le_refl 0) (le_refl 0)
    · exact absurd hf (lt_irrefl 0)
  | fuel + 1, date, hvd, hinv => by
    unfold next_weekly_go
    dsimp only
    split
    · rename_i hg
      exact hg.2
    · apply next_weekly_go_gt hva h1 h2 fuel (succDate date) (validDate_succDate hvd)
      left
      rcases hinv with hlt | ⟨heq, _⟩
      · exact lt_trans hlt (dateKey_lt_succDate hvd)
      · subst heq
        exact dateKey_lt_succDate hvd

theorem next_weekly_gt {after : DT} {t : THM} {weekday : Nat} (hva : Valid after)
    (h1 : 0 ≤ t.hour) (h2 : 0 ≤ t.minute) : after < next_weekly after t weekday := by
  unfold next_weekly
  exact next_weekly_go_gt hva h1 h2 8 after.date hva.1 (Or.inr ⟨rfl, by omega⟩)

theorem monthly_candidate_gt {after : DT} {t : THM} {day y m : Int}
    (hva : Valid after) (h1 : 0 ≤ t.hour) (h2 : 0 ≤ t.minute) (hd : 0 ≤ day)
    (hm : after.date.year * 13 + after.date.month < y * 13 + m) :
    after < local_datetime y m (min day (daysInMonth y m)) t := by
  apply key_lt_of_dateKey_lt ?_ hva h1 h2 (le_refl 0) (le_refl 0)
  show dateKey after.date < (y * 13 + m) * 32 + min day (daysInMonth y m)
  have hdm := daysInMonth_bounds y m
  have hdm2 := daysInMonth_bounds after.date.year after.date.month
  have hday : after.date.day ≤ 31 := le_trans hva.1.2.2.2 (by omega)
  have hmin : 0 ≤ min day (daysInMonth y m) := le_min hd (by omega)
  unfold dateKey
  omega

theorem next_monthly_go_gt {after : DT} {t : THM} {day : Int} (hva : Valid after)
    (h1 : 0 ≤ t.hour) (h2 : 0 ≤ t.minute) (hd : 0 ≤ day) :
    ∀ (fuel : Nat) (y m : Int),
      (after.date.year * 13 + after.date.month < y * 13 + m ∨
        (y = after.date.year ∧ m = after.date.month ∧ 0 < fuel)) →
      after < next_monthly_go after t day fuel y m
  | 0, y, m, hinv => by
    unfold next_monthly_go
    rcases hinv with hlt | ⟨_, _, hf⟩
    · apply key_lt_of_dateKey_lt ?_ hva h1 h2 (le_refl 0) (le_refl 0)
      show dateKey after.date < (y * 13 + m) * 32 + 1
      have hdm2 := daysInMonth_bounds after.date.year after.date.month
      have hday : after.date.day ≤ 31 := le_trans hva.1.2.2.2 (by omega)
      unfold dateKey
      omega
    · exact absurd hf (lt_irrefl 0)
  | fuel + 1, y, m, hinv => by
    unfold next_monthly_go
    dsimp only
    split
    · rename_i hg
      exact hg
    · split
      · rename_i hg h12
        apply next_monthly_go_gt hva h1 h2 hd fuel (y + 1) 1
        left
        rcases hinv with hlt | ⟨hy, hm', _⟩
        · omega
        · omega
      · rename_i hg h12
        apply next_monthly_go_gt hva h1 h2 hd fuel y (m + 1)
        left
        rcases hinv with hlt | ⟨hy, hm', _⟩
        · omega
        · omega

theorem next_monthly_gt {after : DT} {t : THM} {day : Nat} (hva : Valid after)
    (h1 : 0 ≤ t.hour) (h2 : 0 ≤ t.minute) : after < next_monthly after t day := by
  unfold next_monthly
  exact next_monthly_go_gt hva h1 h2 (Int.ofNat_nonneg day) 24 after.date.year
    after.date.month (Or.inr ⟨rfl, rfl, by omega⟩)

theorem next_monthly_go_first {after : DT} {t : THM} {day : Int} {fuel : Nat} {y m : Int}
    (hva : Valid after) (h1 : 0 ≤ t.hour) (h2 : 0 ≤ t.minute) (hd : 0 ≤ day)
    (hm : after.date.year * 13 + after.date.month < y * 13 + m) :
    next_monthly_go after t day (fuel + 1) y m =
      local_datetime y m (min day (daysInMonth y m)) t := by
  unfold next_monthly_go
  dsimp only
  rw [if_pos (monthly_candidate_gt hva h1 h2 hd hm)]

theorem next_monthly_go_shape {after : DT} {t : THM} {day : Int}
    (hva : Valid after) (h1 : 0 ≤ t.hour) (h2 : 0 ≤ t.minute) (hd : 0 ≤ day) :
    ∀ (fuel : Nat) (y m : Int), 1 ≤ m → m ≤ 12 →
      (after.date.year * 13 + after.date.month < y * 13 + m ∨
        (y = after.date.year ∧ m = after.date.month)) →
      ∃ y' m', 1 ≤ m' ∧ m' ≤ 12 ∧
        next_monthly_go after t day (fuel + 2) y m =
          local_datetime y' m' (min day (daysInMonth y' m')) t := by
  intro fuel y m hm1 hm2 hinv
  show ∃ y' m', 1 ≤ m' ∧ m' ≤ 12 ∧
    next_monthly_go after t day (fuel + 1 + 1) y m =
      local_datetime y' m' (min day (daysInMonth y' m')) t
  unfold next_monthly_go
  dsimp only
  split
  · exact ⟨y, m, hm1, hm2, rfl⟩
  · split
    · rename_i hg h12
      refine ⟨y + 1, 1, by omega, by omega, ?_⟩
      apply next_monthly_go_first hva h1 h2 hd
      rcases hinv with hlt | ⟨hy, hm'⟩ <;> omega
    · rename_i hg h12
      refine ⟨y, m + 1, by omega, by omega, ?_⟩
      apply next_monthly_go_first hva h1 h2 hd
      rcases hinv with hlt | ⟨hy, hm'⟩ <;> omega

theorem next_monthly_clamp {after : DT} {t : THM} {day : Nat}
    (hva : Valid after) (h1 : 0 ≤ t.hour) (h2 : 0 ≤ t.minute) :
    ∃ y' m', 1 ≤ m' ∧ m' ≤ 12 ∧
      next_monthly after t day = local_datetime y' m' (min (day : Int) (daysInMonth y' m')) t := by
  unfold next_monthly
  exact next_monthly_go_shape hva h1 h2 (Int.ofNat_nonneg day) 22 after.date.year
    after.date.month hva.1.1 hva.1.2.1 (Or.inr ⟨rfl, rfl⟩)

/-- Under a fixed-offset timezone, `next_run_after` either does not
return an instant (absent or an error) or returns an instant strictly
greater than the lower bound. -/
theorem next_run_after_fixed_gt (env : CronEnv) (job : JobConfig) (after r : DT)
    (hva : Valid after) (h : next_run_after env job after = .ok (some r)) : after < r := by
  obtain ⟨jid, jname, jen, jsched, jcmd, jts⟩ := job
  cases jen with
  | false => simp [next_run_after] at h
  | true =>
    cases jsched with
    | cron expr =>
      cases hf : env.fromStr expr with
      | none => simp [next_run_after, hf] at h
      | some sched =>
        simp only [next_run_after, hf] at h
        simp only [Bool.true_eq_false, if_false, Except.ok.injEq] at h
        exact sched.next_gt after r h
    | simple rpt time wd day oa =>
      cases rpt with
      | daily =>
        cases hp : parse_hhmm time with
        | error e => simp [next_run_after, hp] at h
        | ok t =>
          simp [next_run_after, hp] at h
          subst h
          obtain ⟨b1, _, b3, _⟩ := parse_hhmm_bounds hp
          exact next_daily_gt hva b1 b3
      | weekly =>
        cases hp : parse_hhmm time with
        | error e => simp [next_run_after, hp] at h
        | ok t =>
          cases wd with
          | none => simp [next_run_after, hp] at h
          | some w =>
            simp [next_run_after, hp] at h
            subst h
            obtain ⟨b1, _, b3, _⟩ := parse_hhmm_bounds hp
            exact next_weekly_gt hva b1 b3
      | monthly =>
        cases hp : parse_hhmm time with
        | error e => simp [next_run_after, hp] at h
        | ok t =>
          cases day with
          | none => simp [next_run_after, hp] at h
          | some d =>
            simp [next_run_after, hp] at h
            subst h
            obtain ⟨b1, _, b3, _⟩ := parse_hhmm_bounds hp
            exact next_monthly_gt hva b1 b3
      | everyMinute =>
        simp [next_run_after] at h
        subst h
        exact (next_every_minute_spec hva).2.2.1
      | once =>
        cases oa with
        | none => simp [next_run_after] at h
        | some s =>
          cases hc : chronoParseYMDHM s with
          | none => simp [next_run_after, hc] at h
          | some dt =>
            simp only [next_run_after, hc] at h
            simp only [Bool.true_eq_false, if_false] at h
            split at h
            · rename_i hlt
              injection h with h
              injection h with h
              subst h
              exact hlt
            · exact absurd h (by simp)


/-- C9: for an every-minute schedule and valid lower bound `t`, the next
fire instant has seconds-field 0 and lies in `(t, t + 60 s]` (adding 60
seconds to an instant is exactly `addOneMinute`). -/
theorem claim_C9_every_minute (t : DT) (hv : Valid t) :
    (next_every_minute t).second = 0 ∧ t < next_every_minute t ∧
      next_every_minute t ≤ addOneMinute t := by
  obtain ⟨h0, _, h2, h3⟩ := next_every_minute_spec hv
  exact ⟨h0, h2, h3⟩

/-- Witness for C9 at a concrete instant. -/
theorem claim_C9_witness :
    (next_every_minute sampleAfter).second = 0 ∧ sampleAfter < next_every_minute sampleAfter ∧
      next_every_minute sampleAfter ≤ addOneMinute sampleAfter :=
  claim_C9_every_minute sampleAfter (by decide)

/-- Under a fixed-offset timezone: whenever the month of the computed
monthly fire instant is shorter than the configured `day`, the instant
falls on the last day of that month, at the configured wall-clock
time. -/
theorem next_monthly_fixed_clamp (after : DT) (t : THM) (day : Nat) (hva : Valid after)
    (h1 : 0 ≤ t.hour) (h2 : 0 ≤ t.minute) :
    (daysInMonth (next_monthly after t day).date.year (next_monthly after t day).date.month
        < (day : Int) →
      (next_monthly after t day).date.day =
        daysInMonth (next_monthly after t day).date.year
          (next_monthly after t day).date.month) ∧
    (next_monthly after t day).hour = t.hour ∧
    (next_monthly after t day).minute = t.minute ∧
    (next_monthly after t day).second = 0 := by
  obtain ⟨y', m', hb1, hb2, heq⟩ := @next_monthly_clamp after t day hva h1 h2
  rw [heq]
  refine ⟨?_, rfl, rfl, rfl⟩
  intro hlt
  have hlt' : daysInMonth y' m' < (day : Int) := hlt
  show min (day : Int) (daysInMonth y' m') = daysInMonth y' m'
  exact min_eq_right (le_of_lt hlt')


/-! ### The timezone-explicit evaluators under a fixed offset, and the
DST-gap behaviour (C1, C8) -/

theorem chronoParseYMDHM_zero {s : String} {dt : DT} (h : chronoParseYMDHM s = some dt) :
    dt.second = 0 ∧ dt.nano = 0 := by
  unfold chronoParseYMDHM at h
  dsimp only at h
  repeat' split at h
  all_goals try exact Option.noConfusion h
  all_goals injection h with h
  all_goals subst h
  all_goals exact ⟨rfl, rfl⟩

theorem local_datetime_tz_fixed {tz : TZEnv} (hfix : FixedOffset tz) (y m d : Int) (t : THM) :
    local_datetime_tz tz y m d t = local_datetime y m d t := by
  unfold local_datetime_tz
  rw [hfix]
  rfl

theorem next_daily_tz_fixed {tz : TZEnv} (hfix : FixedOffset tz) (after : DT) (t : THM) :
    next_daily_tz tz after t = next_daily after t := by
  unfold next_daily_tz next_daily
  simp only [local_datetime_tz_fixed hfix]

theorem next_weekly_go_tz_fixed {tz : TZEnv} (hfix : FixedOffset tz) (after : DT) (t : THM)
    (target : Int) :
    ∀ (fuel : Nat) (date : Date),
      next_weekly_go_tz tz after t target fuel date = next_weekly_go after t target fuel date
  | 0, date => by
    unfold next_weekly_go_tz next_weekly_go
    exact local_datetime_tz_fixed hfix date.year date.month date.day t
  | fuel + 1, date => by
    unfold next_weekly_go_tz next_weekly_go
    simp only [local_datetime_tz_fixed hfix,
      next_weekly_go_tz_fixed hfix after t target fuel (succDate date)]

theorem next_weekly_tz_fixed {tz : TZEnv} (hfix : FixedOffset tz) (after : DT) (t : THM)
    (weekday : Nat) : next_weekly_tz tz after t weekday = next_weekly after t weekday := by
  unfold next_weekly_tz next_weekly
  exact next_weekly_go_tz_fixed hfix after t (num_to_weekday weekday) 8 after.date

theorem next_monthly_go_tz_fixed {tz : TZEnv} (hfix : FixedOffset tz) (after : DT) (t : THM)
    (day : Int) :
    ∀ (fuel : Nat) (y m : Int),
      next_monthly_go_tz tz after t day fuel y m = next_monthly_go after t day fuel y m
  | 0, y, m => by
    unfold next_monthly_go_tz next_monthly_go
    exact local_datetime_tz_fixed hfix y m 1 t
  | fuel + 1, y, m => by
    unfold next_monthly_go_tz next_monthly_go
    simp only [local_datetime_tz_fixed hfix,
      next_monthly_go_tz_fixed hfix after t day fuel (y + 1) 1,
      next_monthly_go_tz_fixed hfix after t day fuel y (m + 1)]

theorem next_monthly_tz_fixed {tz : TZEnv} (hfix : FixedOffset tz) (after : DT) (t : THM)
    (day : Nat) : next_monthly_tz tz after t day = next_monthly after t day := by
  unfold next_monthly_tz next_monthly
  exact next_monthly_go_tz_fixed hfix after t (day : Int) 24 after.date.year after.date.month

theorem next_run_after_tz_fixed {tz : TZEnv} (hfix : FixedOffset tz) (env : CronEnv)
    (job : JobConfig) (after : DT) :
    next_run_after_tz tz env job after = next_run_after env job after := by
  obtain ⟨jid, jname, jen, jsched, jcmd, jts⟩ := job
  cases jen with
  | false => rfl
  | true =>
    cases jsched with
    | cron expr => rfl
    | simple rpt time wd day oa =>
      cases rpt with
      | daily =>
        cases hp : parse_hhmm time with
        | error e => simp [next_run_after_tz, next_run_after, hp]
        | ok t => simp [next_run_after_tz, next_run_after, hp, next_daily_tz_fixed hfix]
      | weekly =>
        cases hp : parse_hhmm time with
        | error e => simp [next_run_after_tz, next_run_after, hp]
        | ok t =>
          cases wd with
          | none => simp [next_run_after_tz, next_run_after, hp]
          | some w => simp [next_run_after_tz, next_run_after, hp, next_weekly_tz_fixed hfix]
      | monthly =>
        cases hp : parse_hhmm time with
        | error e => simp [next_run_after_tz, next_run_after, hp]
        | ok t =>
          cases day with
          | none => simp [next_run_after_tz, next_run_after, hp]
          | some d => simp [next_run_after_tz, next_run_after, hp, next_monthly_tz_fixed hfix]
      | everyMinute => rfl
      | once =>
        cases oa with
        | none => rfl
        | some s2 =>
          cases hc : chronoParseYMDHM s2 with
          | none => simp [next_run_after_tz, next_run_after, hc]
          | some naive =>
            obtain ⟨hz1, hz2⟩ := chronoParseYMDHM_zero hc
            obtain ⟨⟨ny, nm, nd⟩, nh, nmi, ns, nn⟩ := naive
            replace hz1 : ns = 0 := hz1
            replace hz2 : nn = 0 := hz2
            subst hz1
            subst hz2
            simp only [next_run_after_tz, next_run_after, hc]
            rw [hfix]

/-- C1 (amended): for every job and every valid instant `t`, provided
every local wall-clock construction resolves single-valued (a timezone
without DST transitions at the relevant times), `next_run_after(job, t)`
either does not return an instant or returns one strictly greater than
`t`. -/
theorem claim_C1_next_run_strictly_after (tz : TZEnv) (env : CronEnv) (job : JobConfig)
    (after r : DT) (hfix : FixedOffset tz) (hva : Valid after)
    (h : next_run_after_tz tz env job after = .ok (some r)) : after < r := by
  rw [next_run_after_tz_fixed hfix] at h
  exact next_run_after_fixed_gt env job after r hva h

/-- Counterexample to C1 as stated: in a timezone whose spring-forward
gap covers hour 02 of 2024-03-10, a daily job at 02:30 evaluated at
2024-03-09 02:35:00 reaches the unguarded second candidate of
`next_daily`; the gap makes the minute-advance scan fail, so
`local_datetime` falls back to `Local::now()` = the evaluation instant
itself, and `next_run_after` returns `Ok(Some(dt))` with `dt ≤ t`. -/
theorem claim_C1_counterexample :
    Valid gapAfter ∧
    next_run_after_tz gapTZ trivialCronEnv gapDailyJob gapAfter = .ok (some gapAfter) ∧
    ¬gapAfter < gapAfter := by
  refine ⟨by decide, by decide, by decide⟩

/-- Witness for the amended C1 at a concrete fixed-offset timezone, daily
job, and instant. -/
theorem claim_C1_witness :
    sampleAfter < (⟨⟨2024, 3, 10⟩, 9, 0, 0, 0⟩ : DT) :=
  claim_C1_next_run_strictly_after fixedTZ trivialCronEnv sampleDailyJob sampleAfter
    ⟨⟨2024, 3, 10⟩, 9, 0, 0, 0⟩ (fun _ _ _ _ _ _ => rfl) (by decide) (by decide)

/-- C8 (amended): for a monthly schedule, provided the wall-clock
constructions involved resolve single-valued, whenever the month of the
computed fire instant is shorter than the configured `day`, the instant
falls on the last day of that month, at the configured wall-clock
time. -/
theorem claim_C8_monthly_clamp (tz : TZEnv) (after : DT) (t : THM) (day : Nat)
    (hfix : FixedOffset tz) (hva : Valid after) (h1 : 0 ≤ t.hour) (h2 : 0 ≤ t.minute) :
    (daysInMonth (next_monthly_tz tz after t day).date.year
        (next_monthly_tz tz after t day).date.month < (day : Int) →
      (next_monthly_tz tz after t day).date.day =
        daysInMonth (next_monthly_tz tz after t day).date.year
          (next_monthly_tz tz after t day).date.month) ∧
    (next_monthly_tz tz after t day).hour = t.hour ∧
    (next_monthly_tz tz after t day).minute = t.minute ∧
    (next_monthly_tz tz after t day).second = 0 := by
  rw [next_monthly_tz_fixed hfix]
  exact next_monthly_fixed_clamp after t day hva h1 h2

/-- Counterexample to C8 as stated: in a timezone whose spring-forward
gap covers hour 00 of 2010-04-30 (Africa/Cairo, 2010), a monthly job with
day=31, time=00:00 evaluated in April clamps to April 30 00:00, which
does not exist; the minute-advance scan fails and `local_datetime`
returns `Local::now()` — here 2010-04-15 14:30 — which is neither on the
last day of April nor at the configured time. -/
theorem claim_C8_counterexample :
    Valid cairoAfter ∧
    next_monthly_tz cairoTZ cairoAfter ⟨0, 0⟩ 31 = ⟨⟨2010, 4, 15⟩, 14, 30, 0, 0⟩ ∧
    daysInMonth (next_monthly_tz cairoTZ cairoAfter ⟨0, 0⟩ 31).date.year
      (next_monthly_tz cairoTZ cairoAfter ⟨0, 0⟩ 31).date.month < (31 : Int) ∧
    ¬(next_monthly_tz cairoTZ cairoAfter ⟨0, 0⟩ 31).date.day =
      daysInMonth (next_monthly_tz cairoTZ cairoAfter ⟨0, 0⟩ 31).date.year
        (next_monthly_tz cairoTZ cairoAfter ⟨0, 0⟩ 31).date.month ∧
    ¬(next_monthly_tz cairoTZ cairoAfter ⟨0, 0⟩ 31).hour = (0 : Int) := by
  refine ⟨by decide, by decide, by decide, by decide, by decide⟩

/-- Witness for the amended C8: monthly day=31 in February 2024 under a
fixed-offset timezone clamps to 2024-02-29. -/
theorem claim_C8_witness :
    (daysInMonth (next_monthly_tz fixedTZ ⟨⟨2024, 2, 1⟩, 0, 0, 0, 0⟩ ⟨0, 0⟩ 31).date.year
        (next_monthly_tz fixedTZ ⟨⟨2024, 2, 1⟩, 0, 0, 0, 0⟩ ⟨0, 0⟩ 31).date.month
        < (31 : Int) →
      (next_monthly_tz fixedTZ ⟨⟨2024, 2, 1⟩, 0, 0, 0, 0⟩ ⟨0, 0⟩ 31).date.day =
        daysInMonth (next_monthly_tz fixedTZ ⟨⟨2024, 2, 1⟩, 0, 0, 0, 0⟩ ⟨0, 0⟩ 31).date.year
          (next_monthly_tz fixedTZ ⟨⟨2024, 2, 1⟩, 0, 0, 0, 0⟩ ⟨0, 0⟩ 31).date.month) ∧
    (next_monthly_tz fixedTZ ⟨⟨2024, 2, 1⟩, 0, 0, 0, 0⟩ ⟨0, 0⟩ 31).hour = (0 : Int) ∧
    (next_monthly_tz fixedTZ ⟨⟨2024, 2, 1⟩, 0, 0, 0, 0⟩ ⟨0, 0⟩ 31).minute = (0 : Int) ∧
    (next_monthly_tz fixedTZ ⟨⟨2024, 2, 1⟩, 0, 0, 0, 0⟩ ⟨0, 0⟩ 31).second = 0 :=
  claim_C8_monthly_clamp fixedTZ ⟨⟨2024, 2, 1⟩, 0, 0, 0, 0⟩ ⟨0, 0⟩ 31
    (fun _ _ _ _ _ _ => rfl) (by decide) (by decide) (by decide)

/-! ### Loader validation versus evaluator parsing (C4) -/

theorem isDigit_ne {c x : Char} (h : c.isDigit = true) (hx : x.isDigit = false) : c ≠ x := by
  intro he
  subst he
  rw [h] at hx
  cases hx

theorem isDigit_not_ws {c : Char} (h : c.isDigit = true) : c.isWhitespace = false := by
  have h1 : c ≠ ' ' := isDigit_ne h (by decide)
  have h2 : c ≠ '\t' := isDigit_ne h (by decide)
  have h3 : c ≠ '\r' := isDigit_ne h (by decide)
  have h4 : c ≠ '\n' := isDigit_ne h (by decide)
  simp [Char.isWhitespace, h1, h2, h3, h4]

theorem digitToNat_le {c : Char} (h : c.isDigit = true) : digitToNat c ≤ 9 := by
  simp [Char.isDigit] at h
  obtain ⟨h1, h2⟩ := h
  have h3 : c.toNat ≤ 57 := h2
  unfold digitToNat
  omega

/-- On a time string in strict `HH:MM` shape, acceptance by the loader's
`validate_hhmm` implies acceptance by the evaluator's chrono parse. -/
theorem chrono_accepts_of_validate {s : String} (hg : goodHHMM s = true)
    (hv : validate_hhmm (some s) = .ok ()) : ∃ t, chronoParseHHMM s = some t := by
  unfold goodHHMM at hg
  simp only [validate_hhmm] at hv
  unfold chronoParseHHMM
  have hcd : (':').isDigit = false := by decide
  rcases hl : s.toList with _ | ⟨a, _ | ⟨x, _ | ⟨b, _ | ⟨c, _ | ⟨d, _ | ⟨e, rest⟩⟩⟩⟩⟩⟩ <;>
    rw [hl] at hg hv
  · simp [goodHHMMCore] at hg
  · simp [goodHHMMCore] at hg
  · simp [goodHHMMCore] at hg
  · -- shape [a, x, b] with x = ':'
    simp [goodHHMMCore] at hg
    obtain ⟨⟨ha, hx⟩, hb⟩ := hg
    subst hx
    have hna : a ≠ ':' := isDigit_ne ha hcd
    have hnb : b ≠ ':' := isDigit_ne hb hcd
    have hpa : a ≠ '+' := isDigit_ne ha (by decide)
    have hpb : b ≠ '+' := isDigit_ne hb (by decide)
    have hda := digitToNat_le ha
    have hdb := digitToNat_le hb
    have hsa : digitToNat a < 4294967296 := by omega
    have hsb : digitToNat b < 4294967296 := by omega
    simp [splitOnChar, hna, hnb, rust_parse_u32, hpa, hpb, ha, hb, hsa, hsb] at hv
    have hwa := isDigit_not_ws ha
    have hwb := isDigit_not_ws hb
    simp [List.dropWhile, hwa, hwb, readDigits, readDigitsAux, ha, hb, hcd, expectChar]
    omega
  · -- shape [a, x, b, c]
    simp [goodHHMMCore] at hg
    rcases hg with ⟨⟨⟨ha, hx⟩, hb⟩, hc⟩ | ⟨⟨⟨ha, hx2⟩, hx3⟩, hc⟩
    · -- [a, ':', b, c]
      subst hx
      have hna : a ≠ ':' := isDigit_ne ha hcd
      have hnb : b ≠ ':' := isDigit_ne hb hcd
      have hnc : c ≠ ':' := isDigit_ne hc hcd
      have hpa : a ≠ '+' := isDigit_ne ha (by decide)
      have hpb : b ≠ '+' := isDigit_ne hb (by decide)
      have hda := digitToNat_le ha
      have hdb := digitToNat_le hb
      have hdc := digitToNat_le hc
      have hsa : digitToNat a < 4294967296 := by omega
      have hsb : digitToNat b * 10 + digitToNat c < 4294967296 := by omega
      simp [splitOnChar, hna, hnb, hnc, rust_parse_u32, hpa, hpb, ha, hb, hc, hsa, hsb] at hv
      have hwa := isDigit_not_ws ha
      have hwb := isDigit_not_ws hb
      simp [List.dropWhile, hwa, hwb, readDigits, readDigitsAux, ha, hb, hc, hcd, expectChar]
      omega
    · -- [a, x, ':', c] with digits a, x, c
      subst hx3
      have hna : a ≠ ':' := isDigit_ne ha hcd
      have hnx : x ≠ ':' := isDigit_ne hx2 hcd
      have hnc : c ≠ ':' := isDigit_ne hc hcd
      have hpa : a ≠ '+' := isDigit_ne ha (by decide)
      have hpc : c ≠ '+' := isDigit_ne hc (by decide)
      have hda := digitToNat_le ha
      have hdx := digitToNat_le hx2
      have hdc := digitToNat_le hc
      have hsa : digitToNat a * 10 + digitToNat x < 4294967296 := by omega
      have hsc : digitToNat c < 4294967296 := by omega
      simp [splitOnChar, hna, hnx, hnc, rust_parse_u32, hpa, hpc, ha, hx2, hc, hsa, hsc] at hv
      have hwa := isDigit_not_ws ha
      have hwx := isDigit_not_ws hx2
      have hwc := isDigit_not_ws hc
      simp [List.dropWhile, hwa, hwx, hwc, readDigits, readDigitsAux, ha, hx2, hc, hcd,
        expectChar]
      omega
  · -- shape [a, x, b, c, d] with digits a, x, c, d and b = ':'
    simp [goodHHMMCore] at hg
    obtain ⟨⟨⟨⟨ha, hx⟩, hb⟩, hc⟩, hd⟩ := hg
    subst hb
    have hna : a ≠ ':' := isDigit_ne ha hcd
    have hnx : x ≠ ':' := isDigit_ne hx hcd
    have hnc : c ≠ ':' := isDigit_ne hc hcd
    have hnd : d ≠ ':' := isDigit_ne hd hcd
    have hpa : a ≠ '+' := isDigit_ne ha (by decide)
    have hpc : c ≠ '+' := isDigit_ne hc (by decide)
    have hda := digitToNat_le ha
    have hdx := digitToNat_le hx
    have hdc := digitToNat_le hc
    have hdd := digitToNat_le hd
    have hsa : digitToNat a * 10 + digitToNat x < 4294967296 := by omega
    have hsc : digitToNat c * 10 + digitToNat d < 4294967296 := by omega
    simp [splitOnChar, hna, hnx, hnc, hnd, rust_parse_u32, hpa, hpc, ha, hx, hc, hd, hsa,
      hsc] at hv
    have hwa := isDigit_not_ws ha
    have hwx := isDigit_not_ws hx
    have hwc := isDigit_not_ws hc
    simp [List.dropWhile, hwa, hwx, hwc, readDigits, readDigitsAux, ha, hx, hc, hd, hcd,
      expectChar]
    omega
  · -- length at least 6
    simp [goodHHMMCore] at hg

/-- C4 (amended): for every job that passes `validate_job` and whose
`time` strings (where the schedule kind uses them) are in strict `HH:MM`
shape, `next_run_after` never returns an error, for any lower-bound
instant. -/
theorem claim_C4_amended (env : CronEnv) (job : JobConfig)
    (hval : validate_job env job = .ok ()) (hfmt : goodTimeFormat job = true) (after : DT) :
    ∃ o, next_run_after env job after = .ok o := by
  obtain ⟨jid, jname, jen, jsched, jcmd, jts⟩ := job
  cases jen with
  | false => exact ⟨none, by simp [next_run_after]⟩
  | true =>
    unfold validate_job at hval
    split at hval
    · exact absurd hval (by simp)
    · split at hval
      · exact absurd hval (by simp)
      · split at hval
        · exact absurd hval (by simp)
        · cases jsched with
          | cron expr =>
            dsimp only at hval
            cases hf : env.fromStr expr with
            | none => rw [hf] at hval; exact absurd hval (by simp)
            | some sched => exact ⟨sched.next after, by simp [next_run_after, hf]⟩
          | simple rpt time wd day oa =>
            dsimp only at hval
            cases rpt with
            | daily =>
              dsimp only at hval
              cases time with
              | none => exact absurd hval (by simp [validate_hhmm])
              | some s2 =>
                simp only [goodTimeFormat] at hfmt
                obtain ⟨t, ht⟩ := chrono_accepts_of_validate hfmt hval
                exact ⟨some (next_daily after t),
                  by simp [next_run_after, parse_hhmm, ht]⟩
            | weekly =>
              dsimp only at hval
              cases wd with
              | none => exact absurd hval (by simp)
              | some w =>
                dsimp only at hval
                split at hval
                · exact absurd hval (by simp)
                · cases time with
                  | none => exact absurd hval (by simp [validate_hhmm])
                  | some s2 =>
                    simp only [goodTimeFormat] at hfmt
                    obtain ⟨t, ht⟩ := chrono_accepts_of_validate hfmt hval
                    exact ⟨some (next_weekly after t w),
                      by simp [next_run_after, parse_hhmm, ht]⟩
            | monthly =>
              dsimp only at hval
              cases day with
              | none => exact absurd hval (by simp)
              | some dy =>
                dsimp only at hval
                split at hval
                · exact absurd hval (by simp)
                · cases time with
                  | none => exact absurd hval (by simp [validate_hhmm])
                  | some s2 =>
                    simp only [goodTimeFormat] at hfmt
                    obtain ⟨t, ht⟩ := chrono_accepts_of_validate hfmt hval
                    exact ⟨some (next_monthly after t dy),
                      by simp [next_run_after, parse_hhmm, ht]⟩
            | everyMinute => exact ⟨some (next_every_minute after), by simp [next_run_after]⟩
            | once =>
              dsimp only at hval
              cases oa with
              | none => exact absurd hval (by simp)
              | some s2 =>
                dsimp only at hval
                cases hc : chronoParseYMDHM s2 with
                | none => rw [hc] at hval; exact absurd hval (by simp)
                | some dt =>
                  refine ⟨if after < dt then some dt else none, ?_⟩
                  simp only [next_run_after, hc, Bool.true_eq_false, if_false]
                  split <;> rfl

/-- Counterexample to C4 as stated: the loader accepts the time string
"009:30" (Rust `u32` parsing tolerates extra leading zeros), but the
evaluator's chrono `%H:%M` parse rejects it, so `next_run_after` errors on
a job that passed validation. -/
theorem claim_C4_counterexample :
    validate_job trivialCronEnv
        ⟨"a", "job a", true, .simple .daily (some "009:30") none none none,
          ⟨"/bin/true", [], none, []⟩, 3600⟩ = .ok () ∧
    next_run_after trivialCronEnv
        ⟨"a", "job a", true, .simple .daily (some "009:30") none none none,
          ⟨"/bin/true", [], none, []⟩, 3600⟩ sampleAfter =
      .error "invalid time: parse error" := by
  constructor
  · decide
  · decide

/-- Witness for the amended C4 at a concrete validated job. -/
theorem claim_C4_witness :
    ∃ o, next_run_after trivialCronEnv sampleDailyJob sampleAfter = .ok o :=
  claim_C4_amended trivialCronEnv sampleDailyJob (by decide) (by decide) sampleAfter

/-! ### Daemon-loop claims -/

theorem lookup_compute_next_runs {env : CronEnv} {t0 : DT} {j : JobConfig} :
    ∀ {jobs : List JobConfig}, (jobs.map JobConfig.id).Nodup → j ∈ jobs →
      lookupNextRun (compute_next_runs env jobs t0) j.id =
        some (exceptOptJoin (next_run_after env j t0)) := by
  intro jobs
  induction jobs with
  | nil => intro _ hmem; cases hmem
  | cons a rest ih =>
    intro hnodup hmem
    simp only [List.map_cons, List.nodup_cons] at hnodup
    obtain ⟨hnin, hnodup'⟩ := hnodup
    cases hmem with
    | head =>
      simp [lookupNextRun, compute_next_runs, List.find?]
    | tail _ hmem' =>
      have hne : a.id ≠ j.id := by
        intro he
        exact hnin (he ▸ List.mem_map_of_mem JobConfig.id hmem')
      simp only [lookupNextRun, compute_next_runs, List.map_cons, List.find?]
      rw [show (a.id == j.id) = false from beq_eq_false_iff_ne.mpr hne]
      exact ih hnodup' hmem'

/-- C2 (amended): a disabled job has no computed next fire time, is never
dispatched by the daemon's manual-request handling, and is never fired by
the schedule arm.  (The CLI inline run path is not covered: it dispatches
regardless of `enabled`, see the counterexample.) -/
theorem claim_C2_amended (env : CronEnv) (jobs : List JobConfig) (reqs : List String)
    (t0 now : DT) (j : JobConfig) (hdis : j.enabled = false) :
    next_run_after env j now = .ok none ∧
    j ∉ manual_dispatch jobs reqs ∧
    ((jobs.map JobConfig.id).Nodup → j ∈ jobs →
      j ∉ due_jobs jobs (compute_next_runs env jobs t0) now) := by
  refine ⟨?_, ?_, ?_⟩
  · simp [next_run_after, hdis]
  · intro hmem
    simp only [manual_dispatch, List.mem_filterMap] at hmem
    obtain ⟨id, _, hfind⟩ := hmem
    have hp := List.find?_some hfind
    simp only [Bool.and_eq_true] at hp
    rw [hdis] at hp
    exact absurd hp.2 (by simp)
  · intro hnodup hmem hdue
    simp only [due_jobs, List.mem_filter] at hdue
    obtain ⟨_, hp⟩ := hdue
    rw [lookup_compute_next_runs hnodup hmem] at hp
    have hnone : next_run_after env j t0 = .ok none := by simp [next_run_after, hdis]
    rw [hnone] at hp
    simp [exceptOptJoin] at hp

/-- Counterexample to C2 as stated: `run_job_inline` selects the job by
id only (`daemon.rs` line 134) and then executes it unconditionally, so
the CLI inline run path dispatches a disabled job. -/
theorem claim_C2_counterexample :
    inline_job [disabledJob] "a" = some disabledJob ∧ disabledJob.enabled = false := by
  constructor
  · decide
  · rfl

/-- Witness for the amended C2 at a concrete disabled job. -/
theorem claim_C2_witness :
    next_run_after trivialCronEnv disabledJob sampleAfter = .ok none ∧
    disabledJob ∉ manual_dispatch [disabledJob] ["a"] ∧
    (([disabledJob].map JobConfig.id).Nodup → disabledJob ∈ [disabledJob] →
      disabledJob ∉
        due_jobs [disabledJob] (compute_next_runs trivialCronEnv [disabledJob] sampleAfter)
          sampleAfter) :=
  claim_C2_amended trivialCronEnv [disabledJob] ["a"] sampleAfter sampleAfter disabledJob rfl

/-- C3: reload atomicity.  On a successful load the new job set is
installed, all next-fire times are recomputed from it, and the error is
cleared; on a failed load the job set and next-fire map are unchanged and
`last_reload_error` records the failure. -/
theorem claim_C3_reload_atomic (env : CronEnv) (st : LoopState) (now : DT) :
    (∀ v, reload_step env st now (.ok v) = ⟨v, compute_next_runs env v now, none⟩) ∧
    (∀ e, reload_step env st now (.error e) =
      ⟨st.jobs, st.nextRuns, some ("reload failed: " ++ e)⟩) :=
  ⟨fun _ => rfl, fun _ => rfl⟩

/-- C5: the outcome table of `execute_job`.  Each wait outcome yields
exactly one `ExecutionRecord` (the function is total), with status and
exit code per the table; the child is force-killed exactly in the timeout
arm; and the wait bound is `max(timeout_seconds, 1)` seconds. -/
theorem claim_C5_execute_outcomes (job : JobConfig) (rid trig : String) (s e : DT) :
    (∀ c, execute_record job rid trig s e (.exited true c) =
      ⟨rid, job.id, trig, s, e, "success", c, "event=success"⟩) ∧
    (∀ c, execute_record job rid trig s e (.exited false c) =
      ⟨rid, job.id, trig, s, e, "failed", c,
        "event=failed exit_code=" ++ toString (c.getD (-1))⟩) ∧
    (∀ m, execute_record job rid trig s e (.waitError m) =
      ⟨rid, job.id, trig, s, e, "failed", none, "event=failed message=wait-error:" ++ m⟩) ∧
    (execute_record job rid trig s e .timedOut =
      ⟨rid, job.id, trig, s, e, "timeout", none, "event=timeout"⟩) ∧
    (execute_outcome .timedOut).childKilled = true ∧
    (∀ su c, (execute_outcome (.exited su c)).childKilled = false) ∧
    (∀ m, (execute_outcome (.waitError m)).childKilled = false) ∧
    timeout_bound job = max job.timeout_seconds 1 := by
  refine ⟨fun c => rfl, fun c => rfl, fun m => rfl, rfl, rfl, fun su c => ?_, fun m => rfl, rfl⟩
  cases su <;> rfl

/-- C10: startup is never aborted by a failing initial job load — the
daemon enters its loop with the empty job set and the failure recorded in
`last_reload_error`; a successful load installs the loaded set; only a
live lockfile pid aborts startup. -/
theorem claim_C10_startup (env : CronEnv) (now : DT) :
    (∀ e, startup_step env false (.error e) now =
      .ok ⟨[], compute_next_runs env [] now, some ("initial load failed: " ++ e)⟩) ∧
    (∀ v, startup_step env false (.ok v) now = .ok ⟨v, compute_next_runs env v now, none⟩) ∧
    (∀ load, startup_step env true load now = .error "daemon is already running") :=
  ⟨fun _ => rfl, fun _ => rfl, fun _ => rfl⟩

/-! ### The recent-runs ring (C6) -/

theorem harvest_step_takeLast (ring : List ExecutionRecord) (r : ExecutionRecord) :
    harvest_step ring r = (ring ++ [r]).drop ((ring ++ [r]).length - 100) := by
  unfold harvest_step
  dsimp only
  split
  · rfl
  · rename_i hlen
    have h0 : (ring ++ [r]).length - 100 = 0 := by omega
    rw [h0, List.drop_zero]

set_option maxRecDepth 4000 in
theorem harvest_takeLast (xs : List ExecutionRecord) :
    ∀ ring : List ExecutionRecord, ring.length ≤ 100 →
      harvest ring xs = (ring ++ xs).drop ((ring ++ xs).length - 100) := by
  induction xs with
  | nil =>
    intro ring h
    unfold harvest
    simp only [List.foldl_nil, List.append_nil]
    rw [show ring.length - 100 = 0 by omega, List.drop_zero]
  | cons x xs ih =>
    intro ring h
    have hstep : harvest ring (x :: xs) = harvest (harvest_step ring x) xs := rfl
    have hkle : (ring ++ [x]).length - 100 ≤ (ring ++ [x]).length := Nat.sub_le _ _
    have hll : ((ring ++ [x]).drop ((ring ++ [x]).length - 100)).length ≤ 100 := by
      simp only [List.length_drop]
      omega
    rw [hstep, harvest_step_takeLast ring x,
      ih ((ring ++ [x]).drop ((ring ++ [x]).length - 100)) hll,
      ← List.drop_append_of_le_length hkle, List.drop_drop]
    simp only [List.append_assoc, List.singleton_append, List.length_append, List.length_drop,
      List.length_cons]
    congr 1
    simp only [List.length_append, List.length_drop, List.length_cons, List.length_nil]
    omega

/-- C6: starting from the empty ring (daemon start), after harvesting any
sequence of records the ring holds at most 100 entries; once more than 100
have been appended it is exactly the suffix of the last 100 in arrival
order; and harvesting tick by tick equals harvesting the concatenated
arrivals. -/
theorem claim_C6_ring_bound (prior xs : List ExecutionRecord) :
    (harvest [] xs).length ≤ 100 ∧
    (100 < xs.length → harvest [] xs = xs.drop (xs.length - 100)) ∧
    harvest (harvest [] prior) xs = harvest [] (prior ++ xs) := by
  have h1 := harvest_takeLast xs [] (by simp)
  simp only [List.nil_append] at h1
  refine ⟨?_, fun _ => h1, ?_⟩
  · rw [h1]
    simp only [List.length_drop]
    omega
  · show List.foldl harvest_step (List.foldl harvest_step [] prior) xs = _
    rw [harvest, ← List.foldl_append]

/-- Witness for C6 at 101 concrete records. -/
theorem claim_C6_witness :
    harvest [] (List.replicate 101 sampleRecord) =
      (List.replicate 101 sampleRecord).drop ((List.replicate 101 sampleRecord).length - 100) :=
  (claim_C6_ring_bound [] (List.replicate 101 sampleRecord)).2.1 (by decide)

/-! ### Loader claims (C7) -/

theorem listLeChar_total : ∀ a b : List Char, listLeChar a b = true ∨ listLeChar b a = true
  | [], b => by
    left
    cases b <;> rfl
  | a :: as, [] => by
    right
    rfl
  | a :: as, b :: bs => by
    by_cases h1 : a.toNat < b.toNat
    · left
      simp [listLeChar, h1]
    · by_cases h2 : b.toNat < a.toNat
      · right
        simp [listLeChar, h2]
      · have := listLeChar_total as bs
        simp [listLeChar, h1, h2]
        exact this

theorem listLeChar_trans :
    ∀ a b c : List Char, listLeChar a b = true → listLeChar b c = true →
      listLeChar a c = true
  | [], _, c, _, _ => by cases c <;> rfl
  | a :: as, [], c, hab, _ => by cases hab
  | a :: as, b :: bs, [], _, hbc => by cases hbc
  | a :: as, b :: bs, c :: cs, hab, hbc => by
    by_cases h1 : a.toNat < b.toNat
    · by_cases h2 : b.toNat < c.toNat
      · simp [listLeChar, show a.toNat < c.toNat by omega]
      · by_cases h4 : c.toNat < b.toNat
        · simp [listLeChar, h2, h4] at hbc
        · simp [listLeChar, show a.toNat < c.toNat by omega]
    · by_cases h3 : b.toNat < a.toNat
      · simp [listLeChar, h1, h3] at hab
      · by_cases h2 : b.toNat < c.toNat
        · simp [listLeChar, show a.toNat < c.toNat by omega]
        · by_cases h4 : c.toNat < b.toNat
          · simp [listLeChar, h2, h4] at hbc
          · simp [listLeChar, h1, h3] at hab
            simp [listLeChar, h2, h4] at hbc
            simp [listLeChar, show ¬a.toNat < c.toNat by omega,
              show ¬c.toNat < a.toNat by omega]
            exact listLeChar_trans as bs cs hab hbc

instance : IsTotal JobConfig jobIdLe :=
  ⟨fun a b => listLeChar_total a.id.toList b.id.toList⟩

instance : IsTrans JobConfig jobIdLe :=
  ⟨fun a b c => listLeChar_trans a.id.toList b.id.toList c.id.toList⟩

theorem load_jobs_go_ok_sorted {env : CronEnv} :
    ∀ {entries : List DirEntry} {jobs : List JobConfig} {ids : List String}
      {l : List JobConfig}, load_jobs_go env entries jobs ids = .ok l → l.Pairwise jobIdLe := by
  intro entries
  induction entries with
  | nil =>
    intro jobs ids l h
    injection h with h
    rw [← h]
    exact List.sorted_insertionSort jobIdLe jobs
  | cons e rest ih =>
    intro jobs ids l h
    unfold load_jobs_go at h
    split at h
    · exact ih h
    · split at h
      · exact ih h
      · split at h
        · exact absurd h (by simp)
        · split at h
          · exact absurd h (by simp)
          · split at h
            · exact absurd h (by simp)
            · exact ih h

theorem load_jobs_go_skip {env : CronEnv} {e : DirEntry}
    (hskip : e.isFile = false ∨ pathExtension e.name ≠ some ("json".toList)) :
    ∀ (rest : List DirEntry) (jobs : List JobConfig) (ids : List String),
      load_jobs_go env (e :: rest) jobs ids = load_jobs_go env rest jobs ids := by
  intro rest jobs ids
  conv_lhs => unfold load_jobs_go
  rcases hskip with h | h
  · rw [if_pos h]
  · by_cases hf : e.isFile = false
    · rw [if_pos hf]
    · rw [if_neg hf, if_pos h]

theorem load_jobs_go_ignores {env : CronEnv} {e : DirEntry}
    (hskip : e.isFile = false ∨ pathExtension e.name ≠ some ("json".toList)) :
    ∀ (pre post : List DirEntry) (jobs : List JobConfig) (ids : List String),
      load_jobs_go env (pre ++ e :: post) jobs ids = load_jobs_go env (pre ++ post) jobs ids := by
  intro pre
  induction pre with
  | nil =>
    intro post jobs ids
    exact load_jobs_go_skip hskip post jobs ids
  | cons p pre' ih =>
    intro post jobs ids
    show load_jobs_go env (p :: (pre' ++ e :: post)) jobs ids =
      load_jobs_go env (p :: (pre' ++ post)) jobs ids
    unfold load_jobs_go
    split
    · exact ih post jobs ids
    · split
      · exact ih post jobs ids
      · split
        · rfl
        · split
          · rfl
          · split
            · rfl
            · exact ih post _ _

theorem load_jobs_go_parse_error {env : CronEnv} {e : DirEntry} {rest : List DirEntry}
    {jobs : List JobConfig} {ids : List String} {msg : String} (h1 : e.isFile = true)
    (h2 : pathExtension e.name = some ("json".toList)) (h3 : e.parsed = .error msg) :
    load_jobs_go env (e :: rest) jobs ids =
      .error ("parse job file " ++ e.name ++ ": " ++ msg) := by
  unfold load_jobs_go
  rw [if_neg (by simp [h1]), if_neg (by simp [h2]), h3]

theorem load_jobs_go_validate_error {env : CronEnv} {e : DirEntry} {rest : List DirEntry}
    {jobs : List JobConfig} {ids : List String} {job : JobConfig} {msg : String}
    (h1 : e.isFile = true) (h2 : pathExtension e.name = some ("json".toList))
    (h3 : e.parsed = .ok job) (h4 : validate_job env job = .error msg) :
    load_jobs_go env (e :: rest) jobs ids = .error ("invalid job " ++ job.id ++ ": " ++ msg) := by
  unfold load_jobs_go
  rw [if_neg (by simp [h1]), if_neg (by simp [h2]), h3]
  dsimp only
  rw [h4]

theorem load_jobs_go_duplicate {env : CronEnv} {e : DirEntry} {rest : List DirEntry}
    {jobs : List JobConfig} {ids : List String} {job : JobConfig}
    (h1 : e.isFile = true) (h2 : pathExtension e.name = some ("json".toList))
    (h3 : e.parsed = .ok job) (h4 : validate_job env job = .ok ()) (h5 : job.id ∈ ids) :
    load_jobs_go env (e :: rest) jobs ids = .error ("duplicate job id: " ++ job.id) := by
  unfold load_jobs_go
  rw [if_neg (by simp [h1]), if_neg (by simp [h2]), h3]
  dsimp only
  rw [h4]
  dsimp only
  rw [if_pos h5]

/-- C7 (amended): the loader returns accepted jobs sorted ascending by
id; non-files and non-JSON files are ignored; any parse, validation, or
duplicate-id failure rejects the whole set with a descriptive error —
parse failures name the offending file, while validation failures name
the offending job id and duplicate-id failures name the duplicated id
(not the file). -/
theorem claim_C7_loader (env : CronEnv) :
    (∀ entries l, load_jobs env entries = .ok l → l.Pairwise jobIdLe) ∧
    (∀ e pre post, (e.isFile = false ∨ pathExtension e.name ≠ some ("json".toList)) →
      load_jobs env (pre ++ e :: post) = load_jobs env (pre ++ post)) ∧
    (∀ e rest jobs ids msg, e.isFile = true → pathExtension e.name = some ("json".toList) →
      e.parsed = .error msg →
      load_jobs_go env (e :: rest) jobs ids =
        .error ("parse job file " ++ e.name ++ ": " ++ msg)) ∧
    (∀ e rest jobs ids job msg, e.isFile = true →
      pathExtension e.name = some ("json".toList) → e.parsed = .ok job →
      validate_job env job = .error msg →
      load_jobs_go env (e :: rest) jobs ids =
        .error ("invalid job " ++ job.id ++ ": " ++ msg)) ∧
    (∀ e rest jobs ids job, e.isFile = true → pathExtension e.name = some ("json".toList) →
      e.parsed = .ok job → validate_job env job = .ok () → job.id ∈ ids →
      load_jobs_go env (e :: rest) jobs ids = .error ("duplicate job id: " ++ job.id)) := by
  refine ⟨?_, ?_, ?_, ?_, ?_⟩
  · intro entries l h
    exact load_jobs_go_ok_sorted h
  · intro e pre post hskip
    exact load_jobs_go_ignores hskip pre post [] []
  · intro e rest jobs ids msg h1 h2 h3
    exact load_jobs_go_parse_error h1 h2 h3
  · intro e rest jobs ids job msg h1 h2 h3 h4
    exact load_jobs_go_validate_error h1 h2 h3 h4
  · intro e rest jobs ids job h1 h2 h3 h4 h5
    exact load_jobs_go_duplicate h1 h2 h3 h4 h5

/-- Counterexample to C7 as stated: a validation failure in file `a.json`
(job id `b`, empty name) is reported as `invalid job b: job.name is
required`, an error that does not name the offending file. -/
theorem claim_C7_counterexample :
    load_jobs trivialCronEnv [badNameEntry] = .error "invalid job b: job.name is required" ∧
    containsSeq ("a.json".toList) ("invalid job b: job.name is required".toList) = false := by
  constructor
  · decide
  · decide

/-- Witness for the amended C7: the validation-failure arm at the
concrete entry. -/
theorem claim_C7_witness :
    load_jobs_go trivialCronEnv [badNameEntry] [] [] =
      .error ("invalid job " ++ "b" ++ ": " ++ "job.name is required") :=
  (claim_C7_loader trivialCronEnv).2.2.2.1 badNameEntry [] [] []
    ⟨"b", "", true, .simple .everyMinute none none none none, ⟨"p", [], none, []⟩, 3600⟩
    "job.name is required" (by decide) (by decide) (by decide) (by decide)

end Macrond

/-! ## Concrete evaluations (sanity checks, including the spec's S1–S4
scenarios) -/

section Evaluations
open Macrond

example : daysInMonth 2024 2 = 29 := by decide
example : succDate ⟨2024, 2, 29⟩ = ⟨2024, 3, 1⟩ := by decide
example : (⟨⟨2024, 2, 29⟩, 0, 0, 0, 0⟩ : DT) < ⟨⟨2024, 3, 1⟩, 0, 0, 0, 0⟩ := by decide

example : "ab".toList = ['a', 'b'] := rfl
example : ('a').toNat < ('b').toNat := by decide
example : chronoParseHHMM "09:00" = some ⟨9, 0⟩ := by decide
example : chronoParseHHMM "9:30" = some ⟨9, 30⟩ := by decide
example : chronoParseHHMM "009:30" = none := by decide
example : chronoParseHHMM "+9:30" = none := by decide
example : chronoParseHHMM "24:00" = none := by decide
example : chronoParseYMDHM "2024-02-29 13:05" = some ⟨⟨2024, 2, 29⟩, 13, 5, 0, 0⟩ := by decide
example : chronoParseYMDHM "2023-02-29 13:05" = none := by decide
example :
    next_daily ⟨⟨2024, 3, 10⟩, 8, 59, 30, 0⟩ ⟨9, 0⟩ = ⟨⟨2024, 3, 10⟩, 9, 0, 0, 0⟩ := by decide
example :
    next_daily ⟨⟨2024, 3, 10⟩, 9, 0, 30, 0⟩ ⟨9, 0⟩ = ⟨⟨2024, 3, 11⟩, 9, 0, 0, 0⟩ := by decide
example :
    next_weekly ⟨⟨2024, 1, 1⟩, 0, 0, 0, 0⟩ ⟨12, 0⟩ 3 = ⟨⟨2024, 1, 3⟩, 12, 0, 0, 0⟩ := by decide
example :
    next_monthly ⟨⟨2024, 2, 1⟩, 0, 0, 0, 0⟩ ⟨0, 0⟩ 31 = ⟨⟨2024, 2, 29⟩, 0, 0, 0, 0⟩ := by decide
example :
    next_every_minute ⟨⟨2024, 12, 31⟩, 23, 59, 30, 5⟩ = ⟨⟨2025, 1, 1⟩, 0, 0, 0, 0⟩ := by decide
example : pathExtension "a.json" = some ("json".toList) := by decide
example : pathExtension ".json" = none := by decide
example : pathExtension "nodots" = none := by decide
example : validate_hhmm (some "009:30") = .ok () := by decide
example : validate_hhmm (some "+9:30") = .ok () := by decide
example : chronoParseHHMM "009:30" = none := by decide
example : validate_hhmm (some "24:00") = .error "simple.time out of range" := by decide
example : validate_hhmm (some "9") = .error "simple.time must be HH:MM" := by decide

end Evaluations
